import Mathlib

/-!
# Verification of the jenkins_exporter core against its specification

Shallow embedding of the `jenkins` package of landervdb/jenkins_exporter
(files `jenkins/job.go`, `jenkins/jobpath.go`, `main.go`) and proofs about it.

Modelling conventions:
* Go `int` is modelled as `Int` (the exporter never overflows in the claims
  under study; `strconv.ParseInt` bounds are modelled explicitly).
* Go maps with string keys are modelled as association lists with
  insert-at-head and first-match lookup, so that a later insertion shadows an
  earlier one exactly as a Go map assignment does; a lookup of an absent key
  returns the zero value `""` as in Go.
* Filesystem contents are modelled as explicit inductive data; each Go
  function that performs I/O becomes a pure function of that data.
* A Go function returning `(T, error)` becomes `Option`/`Except`/a pair with
  a Bool error flag, matching how its callers inspect the error.
-/

namespace Jenkins

/-! ## Go string and map helpers -/

/-- Lookup in a Go `map[string]string` modelled as an association list with the
most recent insertion first.  A missing key yields the zero value `""`,
exactly as a Go map read does. -/
def mapGet (m : List (String × String)) (k : String) : String :=
  match m.find? (fun kv => kv.1 == k) with
  | some kv => kv.2
  | none => ""

/-- Go map assignment `m[k] = v`: the new binding shadows any older one. -/
def mapInsert (m : List (String × String)) (k v : String) : List (String × String) :=
  (k, v) :: m

/-- `strings.Split(s, sep)` for a one-character separator: splits around every
occurrence of the separator and keeps empty fields, so the result is never
empty (`Split("", sep) = [""]`). -/
def goSplit (sep : Char) : List Char → List (List Char)
  | [] => [[]]
  | c :: rest =>
    let r := goSplit sep rest
    if c = sep then [] :: r
    else
      match r with
      | [] => [[c]]
      | h :: t => (c :: h) :: t

/-- `strings.Join(parts, sep)` for a one-character separator. -/
def goJoin (sep : Char) : List (List Char) → List Char
  | [] => []
  | [x] => x
  | x :: rest => x ++ sep :: goJoin sep rest

/-- Value of a nonempty all-digit run, used by the `strconv.ParseInt` model. -/
def digitsVal (l : List Char) : Option Nat :=
  match l with
  | [] => none
  | _ =>
    if l.all Char.isDigit then
      some (l.foldl (fun a c => a * 10 + (c.toNat - 48)) 0)
    else none

/-- `strconv.ParseInt(s, 10, 64)`: an optional sign followed by at least one
decimal digit, with the value required to fit in a signed 64-bit integer.
Anything else (empty string, stray characters, overflow) is an error,
modelled as `none`. -/
def goParseInt64 (s : String) : Option Int :=
  match s.data with
  | '+' :: rest =>
    (digitsVal rest).bind fun n => if (n : Int) ≤ 2 ^ 63 - 1 then some (n : Int) else none
  | '-' :: rest =>
    (digitsVal rest).bind fun n => if (n : Int) ≤ 2 ^ 63 then some (-(n : Int)) else none
  | l =>
    (digitsVal l).bind fun n => if (n : Int) ≤ 2 ^ 63 - 1 then some (n : Int) else none

/-! ## The Build value type (`jenkins/jobpath.go`)

The Go struct also carries the raw decoded XML (`raw buildXML`); that field is
write-only in the package and is omitted here. -/

/-- `Build` from `jenkins/jobpath.go`: one build of a job. -/
structure Build where
  Number : Int
  Timestamp : Int
  Duration : Int
  Result : String
  EnvVars : List (String × String)
deriving DecidableEq

/-- The Go zero value `Build{}`: `Number == 0` denotes "no such build". -/
def zeroBuild : Build := { Number := 0, Timestamp := 0, Duration := 0, Result := "", EnvVars := [] }

/-! ## selectLastBuild (`jenkins/job.go`, lines 85-119) -/

/-- The five category slots of a `Job` that `selectLastBuild` reads. -/
structure JobBuilds where
  LastSuccessfulBuild : Build
  LastUnsuccessfulBuild : Build
  LastStableBuild : Build
  LastUnstableBuild : Build
  LastFailedBuild : Build
deriving DecidableEq

/-- One `if cand.Number > max { lastBuild = cand; max = cand.Number }` step of
`selectLastBuild`, acting on the `(lastBuild, max)` pair. -/
def selStep (p : Build × Int) (b : Build) : Build × Int :=
  if b.Number > p.2 then (b, b.Number) else p

/-- The order in which `selectLastBuild` examines the five slots:
successful, stable, unsuccessful, unstable, failed. -/
def scanOrder (j : JobBuilds) : List Build :=
  [j.LastSuccessfulBuild, j.LastStableBuild, j.LastUnsuccessfulBuild,
   j.LastUnstableBuild, j.LastFailedBuild]

/-- `selectLastBuild` from `jenkins/job.go`: starting from the zero build and
`max = 0`, each of the five candidates is compared with a strict greater-than
against the running maximum in the fixed order successful, stable,
unsuccessful, unstable, failed; if `max` is still `0` at the end the function
fails ("no builds found"), modelled as `none`. -/
def selectLastBuild (j : JobBuilds) : Option Build :=
  let p1 := selStep (zeroBuild, 0) j.LastSuccessfulBuild
  let p2 := selStep p1 j.LastStableBuild
  let p3 := selStep p2 j.LastUnsuccessfulBuild
  let p4 := selStep p3 j.LastUnstableBuild
  let p5 := selStep p4 j.LastFailedBuild
  if p5.2 = 0 then none else some p5.1

theorem selectLastBuild_eq_foldl (j : JobBuilds) :
    selectLastBuild j =
      if ((scanOrder j).foldl selStep (zeroBuild, 0)).2 = 0 then none
      else some ((scanOrder j).foldl selStep (zeroBuild, 0)).1 := rfl

/-- The running maximum component of the scan is a fold of `max` over the
candidate numbers. -/
theorem selFold_snd (l : List Build) (b0 : Build) (m0 : Int) :
    (l.foldl selStep (b0, m0)).2 = l.foldl (fun m b => max m b.Number) m0 := by
  induction l generalizing b0 m0 with
  | nil => rfl
  | cons b t ih =>
    simp only [List.foldl_cons, selStep]
    split
    · next h => rw [ih]; congr 1; omega
    · next h => rw [ih]; congr 1; omega

theorem foldlMax_le_iff (l : List Build) (m0 c : Int) :
    l.foldl (fun m b => max m b.Number) m0 ≤ c ↔ m0 ≤ c ∧ ∀ b ∈ l, b.Number ≤ c := by
  induction l generalizing m0 with
  | nil => simp
  | cons b t ih =>
    simp only [List.foldl_cons, ih, List.mem_cons]
    constructor
    · rintro ⟨h1, h2⟩
      refine ⟨by omega, fun x hx => ?_⟩
      rcases hx with rfl | hx
      · omega
      · exact h2 x hx
    · rintro ⟨h1, h2⟩
      have hb := h2 b (Or.inl rfl)
      exact ⟨by omega, fun x hx => h2 x (Or.inr hx)⟩

theorem le_foldlMax (l : List Build) (m0 : Int) :
    m0 ≤ l.foldl (fun m b => max m b.Number) m0 := by
  have := (foldlMax_le_iff l m0 (l.foldl (fun m b => max m b.Number) m0)).mp le_rfl
  exact this.1

theorem mem_le_foldlMax (l : List Build) (m0 : Int) (b : Build) (hb : b ∈ l) :
    b.Number ≤ l.foldl (fun m b => max m b.Number) m0 := by
  have := (foldlMax_le_iff l m0 (l.foldl (fun m b => max m b.Number) m0)).mp le_rfl
  exact this.2 b hb

/-- If the running maximum never rose above its initial value, the selected
build is still the initial one. -/
theorem selFold_stay (l : List Build) (b0 : Build) (m0 : Int)
    (h : (l.foldl selStep (b0, m0)).2 = m0) : (l.foldl selStep (b0, m0)).1 = b0 := by
  induction l generalizing b0 m0 with
  | nil => rfl
  | cons b t ih =>
    simp only [List.foldl_cons, selStep] at h ⊢
    by_cases hgt : b.Number > m0
    · rw [if_pos hgt] at h ⊢
      exfalso
      have hle : b.Number ≤ (t.foldl selStep (b, b.Number)).2 := by
        rw [selFold_snd]; exact le_foldlMax t b.Number
      rw [h] at hle
      omega
    · rw [if_neg hgt] at h ⊢
      exact ih b0 m0 h

/-- If the running maximum strictly rose during the scan, the selected build
is the first candidate whose number equals the final maximum. -/
theorem selFold_find (l : List Build) (b0 : Build) (m0 : Int)
    (h : m0 < (l.foldl selStep (b0, m0)).2) :
    l.find? (fun b => b.Number == (l.foldl selStep (b0, m0)).2) =
      some (l.foldl selStep (b0, m0)).1 := by
  induction l generalizing b0 m0 with
  | nil => simp at h
  | cons b t ih =>
    simp only [List.foldl_cons, selStep] at h ⊢
    by_cases hgt : b.Number > m0
    · rw [if_pos hgt] at h ⊢
      have hge : b.Number ≤ (t.foldl selStep (b, b.Number)).2 := by
        rw [selFold_snd]; exact le_foldlMax t b.Number
      rcases lt_or_eq_of_le hge with hlt | heq
      · rw [List.find?_cons_of_neg _ (by simp; omega)]
        exact ih b b.Number hlt
      · rw [List.find?_cons_of_pos _ (by rw [← heq]; simp),
          selFold_stay t b b.Number heq.symm]
    · rw [if_neg hgt] at h ⊢
      rw [List.find?_cons_of_neg _ (by simp; omega)]
      exact ih b0 m0 h

/-- Selection succeeds exactly when some candidate has a positive number. -/
theorem selectLastBuild_isSome_iff (j : JobBuilds) :
    (∃ lb, selectLastBuild j = some lb) ↔ ∃ b ∈ scanOrder j, 0 < b.Number := by
  rw [selectLastBuild_eq_foldl]
  set p := (scanOrder j).foldl selStep (zeroBuild, 0) with hp
  have hsnd : p.2 = (scanOrder j).foldl (fun m b => max m b.Number) 0 := by
    rw [hp]; exact selFold_snd _ _ _
  constructor
  · rintro ⟨lb, hlb⟩
    split at hlb
    · exact absurd hlb (by simp)
    · next hne =>
      by_contra hall
      push_neg at hall
      have h1 : p.2 ≤ 0 := by
        rw [hsnd, foldlMax_le_iff]
        exact ⟨le_rfl, fun b hb => by have := hall b hb; omega⟩
      have h2 : (0 : Int) ≤ p.2 := by
        rw [hsnd]; exact le_foldlMax _ _
      omega
  · rintro ⟨b, hb, hpos⟩
    have hble : b.Number ≤ p.2 := by
      rw [hsnd]; exact mem_le_foldlMax _ _ _ hb
    split
    · next h0 => omega
    · exact ⟨_, rfl⟩

/-- C1 (claim): with non-negative candidate numbers and at least one positive
one, `selectLastBuild` returns the candidate with the strictly greatest
number; on ties, the first candidate in the fixed priority order successful,
stable, unsuccessful, unstable, failed (which is exactly `scanOrder`) wins:
the returned build is the first element of `scanOrder` whose number equals
the maximum. -/
theorem C1_selectLastBuild_max_priority (j : JobBuilds)
    (hnn : ∀ b ∈ scanOrder j, 0 ≤ b.Number)
    (hpos : ∃ b ∈ scanOrder j, 0 < b.Number) :
    ∃ lb, selectLastBuild j = some lb ∧
      (∀ b ∈ scanOrder j, b.Number ≤ lb.Number) ∧
      (scanOrder j).find? (fun b => b.Number == lb.Number) = some lb := by
  obtain ⟨lb, hlb⟩ := (selectLastBuild_isSome_iff j).mpr hpos
  refine ⟨lb, hlb, ?_⟩
  rw [selectLastBuild_eq_foldl] at hlb
  set p := (scanOrder j).foldl selStep (zeroBuild, 0) with hp
  split at hlb
  · exact absurd hlb (by simp)
  · next hne =>
    obtain rfl : lb = p.1 := by injection hlb with h; exact h.symm
    have h0 : (0 : Int) ≤ p.2 := by rw [hp]; rw [selFold_snd]; exact le_foldlMax _ _
    have hlt : (0 : Int) < p.2 := lt_of_le_of_ne h0 (Ne.symm hne)
    have hfind := selFold_find (scanOrder j) zeroBuild 0 (hp ▸ hlt)
    rw [← hp] at hfind
    have hnum : p.1.Number = p.2 := by
      have := List.find?_some hfind
      simpa using this
    constructor
    · intro b hb
      rw [hnum, hp]; rw [selFold_snd]
      exact mem_le_foldlMax _ _ _ hb
    · rw [hnum]; exact hfind

/-- Witness for C1 at a concrete tie: successful and stable both have number
3 (failed has 2); the successful build is selected. -/
theorem C1_witness :
    ∃ lb, selectLastBuild
        { LastSuccessfulBuild := { zeroBuild with Number := 3, Result := "SUCCESS" },
          LastUnsuccessfulBuild := zeroBuild,
          LastStableBuild := { zeroBuild with Number := 3, Result := "STABLE" },
          LastUnstableBuild := zeroBuild,
          LastFailedBuild := { zeroBuild with Number := 2, Result := "FAILURE" } } = some lb ∧
      (∀ b ∈ scanOrder
        { LastSuccessfulBuild := { zeroBuild with Number := 3, Result := "SUCCESS" },
          LastUnsuccessfulBuild := zeroBuild,
          LastStableBuild := { zeroBuild with Number := 3, Result := "STABLE" },
          LastUnstableBuild := zeroBuild,
          LastFailedBuild := { zeroBuild with Number := 2, Result := "FAILURE" } },
        b.Number ≤ lb.Number) ∧
      (scanOrder
        { LastSuccessfulBuild := { zeroBuild with Number := 3, Result := "SUCCESS" },
          LastUnsuccessfulBuild := zeroBuild,
          LastStableBuild := { zeroBuild with Number := 3, Result := "STABLE" },
          LastUnstableBuild := zeroBuild,
          LastFailedBuild := { zeroBuild with Number := 2, Result := "FAILURE" } }).find?
        (fun b => b.Number == lb.Number) = some lb :=
  C1_selectLastBuild_max_priority _ (by decide) (by decide)

/-- C5 (claim): under the data-model invariant that build numbers are
non-negative, `selectLastBuild` fails ("no builds found") exactly when every
one of the five inputs is the zero-value build (number 0), and succeeds as
soon as one input has a positive number. -/
theorem C5_selectLastBuild_noBuildsFound (j : JobBuilds)
    (hnn : ∀ b ∈ scanOrder j, 0 ≤ b.Number) :
    (selectLastBuild j = none ↔ ∀ b ∈ scanOrder j, b.Number = 0) ∧
      ((∃ b ∈ scanOrder j, 0 < b.Number) → ∃ lb, selectLastBuild j = some lb) := by
  constructor
  · constructor
    · intro hnone b hb
      by_contra hne
      have hpos : 0 < b.Number := lt_of_le_of_ne (hnn b hb) (Ne.symm hne)
      obtain ⟨lb, hlb⟩ := (selectLastBuild_isSome_iff j).mpr ⟨b, hb, hpos⟩
      rw [hnone] at hlb
      exact Option.noConfusion hlb
    · intro hall
      cases hsel : selectLastBuild j with
      | none => rfl
      | some lb =>
        obtain ⟨b, hb, hpos⟩ := (selectLastBuild_isSome_iff j).mp ⟨lb, hsel⟩
        have := hall b hb
        omega
  · exact fun hpos => (selectLastBuild_isSome_iff j).mpr hpos

/-- Witness for C5: a job whose only nonzero slot is a failed build with
number 7 is selectable, and the all-zero job is not. -/
theorem C5_witness :
    (selectLastBuild
        { LastSuccessfulBuild := zeroBuild, LastUnsuccessfulBuild := zeroBuild,
          LastStableBuild := zeroBuild, LastUnstableBuild := zeroBuild,
          LastFailedBuild := { zeroBuild with Number := 7 } } = none ↔
      ∀ b ∈ scanOrder
        { LastSuccessfulBuild := zeroBuild, LastUnsuccessfulBuild := zeroBuild,
          LastStableBuild := zeroBuild, LastUnstableBuild := zeroBuild,
          LastFailedBuild := { zeroBuild with Number := 7 } }, b.Number = 0) ∧
      ((∃ b ∈ scanOrder
        { LastSuccessfulBuild := zeroBuild, LastUnsuccessfulBuild := zeroBuild,
          LastStableBuild := zeroBuild, LastUnstableBuild := zeroBuild,
          LastFailedBuild := { zeroBuild with Number := 7 } }, 0 < b.Number) →
        ∃ lb, selectLastBuild
          { LastSuccessfulBuild := zeroBuild, LastUnsuccessfulBuild := zeroBuild,
            LastStableBuild := zeroBuild, LastUnstableBuild := zeroBuild,
            LastFailedBuild := { zeroBuild with Number := 7 } } = some lb) :=
  C5_selectLastBuild_noBuildsFound _ (by decide)

/-! ## Build metadata parsing (`jenkins/jobpath.go`, lines 154-248)

`newBuildFromXML` reads a file, applies `forceXMLVersion`, and decodes the
bytes into the nested `buildXML` structure with `xml.Unmarshal`.  The XML
decoder itself is outside the model: the embedding starts from the decoded
document.  The deeply nested path
`actions / BuildEnvironment / dataHolders / EnvVars / data / entry` is
purely structural in the Go types and is collapsed here into the list of
entries, each entry being the list of its `<string>` values, exactly what
`getEnvVars` iterates over. -/

/-- The decoded `buildXML` document (`jenkins/jobpath.go`).  `Entries` holds
`build.Actions.BuildEnvironment.DataHolders.EnvVars.Data.Entries`, each as
its `Values []string`. -/
structure BuildXML where
  Result : String
  Timestamp : Int
  Duration : Int
  Number : Int
  Entries : List (List String)
deriving DecidableEq

/-- Outcome of running a Go function: a value, an error value, or a runtime
panic. -/
inductive GoOutcome (α : Type) where
  | ok (val : α)
  | err
  | panicked
deriving DecidableEq

/-- The map `getEnvVars` builds when no entry is short: for each entry `e` it
executes `envVars[e.Values[0]] = e.Values[1]`. -/
def getEnvVarsMap (entries : List (List String)) : List (String × String) :=
  entries.foldl (fun m e => mapInsert m (e.getD 0 "") (e.getD 1 "")) []

/-- `getEnvVars` from `jenkins/jobpath.go` line 193: it indexes `e.Values[0]`
and `e.Values[1]` unconditionally, so an entry with fewer than two `<string>`
values makes the Go runtime panic with an index-out-of-range error. -/
def getEnvVarsRun (entries : List (List String)) : GoOutcome (List (String × String)) :=
  if entries.all (fun e => decide (2 ≤ e.length)) then .ok (getEnvVarsMap entries)
  else .panicked

/-- The post-decode part of `newBuildFromXML` (`jenkins/jobpath.go` lines
220-230): build the environment map, parse `EnvVars["BUILD_NUMBER"]` with
`strconv.ParseInt(_, 10, 64)` (an error here aborts the parse), and fill the
remaining fields from the document. -/
def newBuildFromXMLRun (doc : BuildXML) : GoOutcome Build :=
  match getEnvVarsRun doc.Entries with
  | .panicked => .panicked
  | .err => .err
  | .ok envVars =>
    match goParseInt64 (mapGet envVars "BUILD_NUMBER") with
    | none => .err
    | some n =>
      .ok { Number := n, Timestamp := doc.Timestamp, Duration := doc.Duration,
            Result := doc.Result, EnvVars := envVars }

/-- A document whose direct `number` field is the valid positive integer 5
but which has no `BUILD_NUMBER` environment entry. -/
def docNoEnvNumber : BuildXML :=
  { Result := "SUCCESS", Timestamp := 1000, Duration := 20, Number := 5, Entries := [] }

/-- C4 counterexample: the claim says that when the direct numeric `number`
field yields a valid positive integer the parse succeeds with that number.
On `docNoEnvNumber` (direct field 5, no `BUILD_NUMBER` entry) the code
instead fails: the direct field is never consulted, only the environment
entry is. -/
theorem C4_counterexample :
    docNoEnvNumber.Number = 5 ∧ newBuildFromXMLRun docNoEnvNumber = .err := by decide

/-- C4 (amended): for a document none of whose entries is short (so that
`getEnvVars` does not panic), the parse fails if and only if the
`BUILD_NUMBER` environment entry does not parse as a signed 64-bit decimal
integer; when it parses to `n` — positive or not — the parse succeeds and `n`
becomes the Build number.  The direct numeric `number` field of the document
plays no role. -/
theorem C4_buildNumber_from_env_only (doc : BuildXML)
    (hlong : ∀ e ∈ doc.Entries, 2 ≤ e.length) :
    (newBuildFromXMLRun doc = .err ↔
      goParseInt64 (mapGet (getEnvVarsMap doc.Entries) "BUILD_NUMBER") = none) ∧
    (∀ n, goParseInt64 (mapGet (getEnvVarsMap doc.Entries) "BUILD_NUMBER") = some n →
      newBuildFromXMLRun doc =
        .ok { Number := n, Timestamp := doc.Timestamp, Duration := doc.Duration,
              Result := doc.Result, EnvVars := getEnvVarsMap doc.Entries }) := by
  have hall : doc.Entries.all (fun e => decide (2 ≤ e.length)) = true := by
    rw [List.all_eq_true]
    intro e he
    exact decide_eq_true (hlong e he)
  unfold newBuildFromXMLRun getEnvVarsRun
  rw [hall]
  simp only [if_true]
  constructor
  · cases hn : goParseInt64 (mapGet (getEnvVarsMap doc.Entries) "BUILD_NUMBER") <;> simp
  · intro n hn
    rw [hn]

/-- Witness for C4 (amended) at a concrete document with
`BUILD_NUMBER = "12"`. -/
theorem C4_witness :
    (newBuildFromXMLRun
        { Result := "SUCCESS", Timestamp := 1000, Duration := 20, Number := 12,
          Entries := [["BUILD_NUMBER", "12"]] } = .err ↔
      goParseInt64 (mapGet (getEnvVarsMap [["BUILD_NUMBER", "12"]]) "BUILD_NUMBER") = none) ∧
    (∀ n, goParseInt64 (mapGet (getEnvVarsMap [["BUILD_NUMBER", "12"]]) "BUILD_NUMBER") = some n →
      newBuildFromXMLRun
        { Result := "SUCCESS", Timestamp := 1000, Duration := 20, Number := 12,
          Entries := [["BUILD_NUMBER", "12"]] } =
        .ok { Number := n, Timestamp := 1000, Duration := 20,
              Result := "SUCCESS", EnvVars := getEnvVarsMap [["BUILD_NUMBER", "12"]] }) :=
  C4_buildNumber_from_env_only
    { Result := "SUCCESS", Timestamp := 1000, Duration := 20, Number := 12,
      Entries := [["BUILD_NUMBER", "12"]] } (by decide)

/-- A decodable document one of whose environment entries has a single
`<string>` value — e.g. the bytes
`<build><actions>...<entry><string>JOB_NAME</string></entry>...</actions></build>`. -/
def docShortEntry : BuildXML :=
  { Result := "SUCCESS", Timestamp := 1000, Duration := 20, Number := 5,
    Entries := [["BUILD_NUMBER", "5"], ["JOB_NAME"]] }

/-- C7: the spec promises that parsing never panics for any file content, and
errors are always returned as values.  But on a document whose
environment-variable entry has fewer than two value elements, `getEnvVars`
indexes `e.Values[1]` out of range and the Go runtime panics, so `parseBuild`
neither returns a Build nor an error value. -/
theorem C7_getEnvVars_panics :
    newBuildFromXMLRun docShortEntry = .panicked := by decide

/-! ## forceXMLVersion (`jenkins/jobpath.go`, lines 250-255)

`forceXMLVersion` is `strings.Replace(str, old, new, 1)` with
`old = "<?xml version='1.1' encoding='UTF-8'?>"` and the same string with
`1.0` as `new`: it replaces the first occurrence of `old`, if any, and leaves
everything else unchanged.  File contents are modelled as `List Char`. -/

/-- A single-quote character, written via its code point. -/
def squote : Char := Char.ofNat 39

/-- The bytes of `<?xml version=(q)V(q) encoding=(q)UTF-8(q)?>` where `(q)` is
a single quote and `V` the version text. -/
def xmlVersionDecl (v : List Char) : List Char :=
  "<?xml version=".data ++ squote :: v ++ squote :: " encoding=".data ++
    squote :: "UTF-8".data ++ squote :: "?>".data

/-- The XML 1.1 declaration newer Jenkins versions emit. -/
def xmlDecl11 : List Char := xmlVersionDecl "1.1".data

/-- The XML 1.0 declaration the Go decoder accepts. -/
def xmlDecl10 : List Char := xmlVersionDecl "1.0".data

/-- `strings.Replace(s, pat, rep, 1)` for a nonempty pattern: replace the
leftmost occurrence of `pat` by `rep`, leave the rest of `s` untouched. -/
def replaceFirst (pat rep : List Char) : List Char → List Char
  | [] => []
  | c :: rest =>
    if pat.isPrefixOf (c :: rest) then rep ++ (c :: rest).drop pat.length
    else c :: replaceFirst pat rep rest

/-- `strings.Contains`-style occurrence test used to reason about
`replaceFirst`. -/
def containsSub (pat : List Char) : List Char → Bool
  | [] => pat.isPrefixOf []
  | c :: rest => pat.isPrefixOf (c :: rest) || containsSub pat rest

/-- `forceXMLVersion` from `jenkins/jobpath.go`: rewrite the first occurrence
of the 1.1 declaration to the 1.0 one. -/
def forceXMLVersion (buf : List Char) : List Char :=
  replaceFirst xmlDecl11 xmlDecl10 buf

theorem replaceFirst_of_leading (pat rep rest : List Char) (hne : pat ≠ []) :
    replaceFirst pat rep (pat ++ rest) = rep ++ rest := by
  match pat, hne with
  | c :: p, _ =>
    show replaceFirst (c :: p) rep (c :: (p ++ rest)) = rep ++ rest
    rw [replaceFirst, if_pos, show c :: (p ++ rest) = (c :: p) ++ rest from rfl,
      List.drop_left]
    rw [List.isPrefixOf_iff_prefix,
      show c :: (p ++ rest) = (c :: p) ++ rest from rfl]
    exact List.prefix_append _ _

theorem replaceFirst_of_not_contains (pat rep : List Char) (s : List Char)
    (h : containsSub pat s = false) : replaceFirst pat rep s = s := by
  induction s with
  | nil => rfl
  | cons c rest ih =>
    rw [containsSub, Bool.or_eq_false_iff] at h
    rw [replaceFirst, if_neg (by rw [h.1]; exact Bool.false_ne_true), ih h.2]

theorem prefix_dichotomy (o a b : List Char) (h : o <+: a ++ b) :
    a <+: o ∨ o <+: a := by
  rcases le_or_lt a.length o.length with hle | hlt
  · exact Or.inl (List.prefix_of_prefix_length_le (List.prefix_append a b) h hle)
  · exact Or.inr (List.prefix_of_prefix_length_le h (List.prefix_append a b) (le_of_lt hlt))

/-- Occurrence scan over an appended list: if no nonempty suffix of `a` is
prefix-compatible with `pat` in either direction and `pat` does not occur in
`b`, then `pat` does not occur in `a ++ b`. -/
theorem containsSub_append_false (pat : List Char) (a b : List Char)
    (ha : ∀ s ∈ a.tails, s ≠ [] → s.isPrefixOf pat = false ∧ pat.isPrefixOf s = false)
    (hb : containsSub pat b = false) : containsSub pat (a ++ b) = false := by
  induction a with
  | nil => simpa using hb
  | cons c a ih =>
    have hmain := ha (c :: a) (by rw [List.mem_tails]) (by simp)
    rw [List.cons_append, containsSub, Bool.or_eq_false_iff]
    refine ⟨?_, ih fun s hs hne => ha s ?_ hne⟩
    · by_contra hcon
      rw [Bool.not_eq_false, List.isPrefixOf_iff_prefix] at hcon
      rcases prefix_dichotomy pat (c :: a) b (by simpa using hcon) with h1 | h2
      · rw [← List.isPrefixOf_iff_prefix] at h1
        rw [hmain.1] at h1
        exact Bool.false_ne_true h1
      · rw [← List.isPrefixOf_iff_prefix] at h2
        rw [hmain.2] at h2
        exact Bool.false_ne_true h2
    · rw [List.mem_tails] at hs ⊢
      exact hs.trans (List.suffix_cons c a)

set_option maxRecDepth 4000 in
/-- No nonempty suffix of the 1.0 declaration is a prefix of the 1.1
declaration, nor conversely: an occurrence of the 1.1 declaration cannot
straddle the boundary between a leading 1.0 declaration and the rest of a
file. -/
theorem decl10_tails_fact : ∀ s ∈ xmlDecl10.tails, s ≠ [] →
    s.isPrefixOf xmlDecl11 = false ∧ xmlDecl11.isPrefixOf s = false := by decide

set_option maxRecDepth 8000 in
/-- C8 counterexample: the claim quantifies over every byte sequence with no
side condition, but when the shared remainder of the two files itself
contains the 1.1-declaration bytes (here the remainder is that declaration
string itself), the fix-up of the 1.1 file rewrites the leading declaration
and keeps the embedded occurrence, while the fix-up of the otherwise
identical 1.0 file rewrites the embedded occurrence instead, so the two
fixed-up files present different bytes — the 1.0 file was changed somewhere
other than a 1.1 version declaration, and a decoder can distinguish the two
results. -/
theorem C8_counterexample :
    forceXMLVersion (xmlDecl11 ++ xmlDecl11) = xmlDecl10 ++ xmlDecl11 ∧
    forceXMLVersion (xmlDecl10 ++ xmlDecl11) = xmlDecl10 ++ xmlDecl10 ∧
    forceXMLVersion (xmlDecl11 ++ xmlDecl11) ≠
      forceXMLVersion (xmlDecl10 ++ xmlDecl11) := by decide

/-- C8 (amended): `forceXMLVersion` replaces exactly the first occurrence of
the 1.1 declaration string and changes nothing else.  (1) On a file starting
with the 1.1 declaration it rewrites exactly that declaration to the 1.0 one
and leaves the remainder untouched; (2) on any byte sequence in which the
1.1 declaration string does not occur it changes nothing; hence (3) for any
decoder whatsoever, a file declaring the legacy 1.1 version decodes — after
the fix-up both files present identical bytes — to exactly the same result
as the identical file declaring the 1.0 version, provided the 1.1
declaration string does not also occur inside the shared remainder of the
file (without that proviso the two fixed-up files can differ, see the
counterexample). -/
theorem C8_forceXMLVersion_pure_substitution :
    (∀ rest : List Char, forceXMLVersion (xmlDecl11 ++ rest) = xmlDecl10 ++ rest) ∧
    (∀ s : List Char, containsSub xmlDecl11 s = false → forceXMLVersion s = s) ∧
    (∀ (decode : List Char → GoOutcome Build) (rest : List Char),
      containsSub xmlDecl11 rest = false →
      decode (forceXMLVersion (xmlDecl11 ++ rest)) =
        decode (forceXMLVersion (xmlDecl10 ++ rest))) := by
  have h1 : ∀ rest : List Char, forceXMLVersion (xmlDecl11 ++ rest) = xmlDecl10 ++ rest :=
    fun rest => replaceFirst_of_leading _ _ _ (by decide)
  have h2 : ∀ s : List Char, containsSub xmlDecl11 s = false → forceXMLVersion s = s :=
    fun s hs => replaceFirst_of_not_contains _ _ _ hs
  refine ⟨h1, h2, fun decode rest hrest => ?_⟩
  rw [h1 rest, h2 (xmlDecl10 ++ rest) (containsSub_append_false _ _ _ decl10_tails_fact hrest)]

/-- Witness for C8 on the concrete remainder `<build></build>`: the 1.1 file
is rewritten to the 1.0 file, and the 1.0 file passes through unchanged, so
both decode identically. -/
theorem C8_witness :
    forceXMLVersion (xmlDecl11 ++ "<build></build>".data) =
        xmlDecl10 ++ "<build></build>".data ∧
      forceXMLVersion (xmlDecl10 ++ "<build></build>".data) =
        xmlDecl10 ++ "<build></build>".data :=
  ⟨C8_forceXMLVersion_pure_substitution.1 _,
   C8_forceXMLVersion_pure_substitution.2.1 _ (by decide)⟩

/-! ## Job name and folder derivation (`jenkins/job.go` lines 71-80 and the
older variant of `fetch` that splits the `JOB_NAME` environment entry)

Both strategies end in the same computation: split the logical path on `/`,
take the last token as the name, and join the remaining tokens (or use `/`
when there is only one token) as the folder.  Strategy (a) first derives the
logical path from the filesystem path by stripping the leading
`^\S+?/jobs/` match and deleting every remaining `jobs/` substring;
strategy (b) uses `EnvVars["JOB_NAME"]` as the logical path directly. -/

/-- The literal `/jobs/` the anchor regex ends with. -/
def jobsSepChars : List Char := "/jobs/".data

/-- The literal `jobs/` removed everywhere by `strings.ReplaceAll`. -/
def jobsSubChars : List Char := "jobs/".data

/-- Scan for the end of the lazy `^\S+?/jobs/` match, having already consumed
at least one non-whitespace character: at each position, first try to read
`/jobs/`, otherwise consume one more non-whitespace character.  Returns the
remainder after the match, or `none` when the regex does not match. -/
def scanJobs : List Char → Option (List Char)
  | [] => none
  | c :: rest =>
    if jobsSepChars.isPrefixOf (c :: rest) then some ((c :: rest).drop 6)
    else if c.isWhitespace then none
    else scanJobs rest

/-- `regexp.MustCompile("^\\S+?/jobs/").ReplaceAllString(path, "")`: because
of the anchor there is at most one match, which must start at the first
character; the lazy `\S+?` makes it end at the earliest `/jobs/` reachable
through non-whitespace characters. -/
def stripJobsRoot (s : List Char) : List Char :=
  match s with
  | [] => s
  | c :: rest =>
    if c.isWhitespace then s
    else
      match scanJobs rest with
      | some r => r
      | none => s

/-- `strings.ReplaceAll(s, "jobs/", "")`: delete every non-overlapping
occurrence, scanning left to right. -/
def removeAllJobs : List Char → List Char
  | [] => []
  | c :: rest =>
    if jobsSubChars.isPrefixOf (c :: rest) then removeAllJobs ((c :: rest).drop 5)
    else c :: removeAllJobs rest
termination_by l => l.length
decreasing_by
  · simp only [List.drop, List.length_cons, List.length_drop]; omega
  · simp only [List.length_cons]; omega

/-- `fixedPath` from `fetch` (`jenkins/job.go` lines 71-72). -/
def fixedPath (path : List Char) : List Char := removeAllJobs (stripJobsRoot path)

/-- The token split shared by both derivation strategies (`jenkins/job.go`
lines 74-80): split the logical path on `/`, the name is the last token, the
folder is `/` for a single token and the join of the leading tokens
otherwise. -/
def nameFolder (logicalPath : List Char) : List Char × List Char :=
  let tokens := goSplit '/' logicalPath
  (tokens.getLastD [],
   if tokens.length = 1 then ['/'] else goJoin '/' tokens.dropLast)

/-- Strategy (a): name and folder from the stripped filesystem path
(current `fetch`). -/
def fetchNameFolderA (path : List Char) : List Char × List Char :=
  nameFolder (fixedPath path)

/-- Strategy (b): name and folder from the `JOB_NAME` environment entry of
the selected last build (older `fetch`). -/
def fetchNameFolderB (jobName : List Char) : List Char × List Char :=
  nameFolder jobName

theorem goSplit_ne_nil (sep : Char) (s : List Char) : goSplit sep s ≠ [] := by
  induction s with
  | nil => simp [goSplit]
  | cons c rest ih =>
    rw [goSplit]
    split
    · simp
    · cases h : goSplit sep rest with
      | nil => simp
      | cons hd tl => simp

theorem goJoin_cons_cons (sep : Char) (x y : List Char) (t : List (List Char)) :
    goJoin sep (x :: y :: t) = x ++ sep :: goJoin sep (y :: t) := rfl

/-- Splitting and re-joining on the same separator is the identity: the
tokens really are the segments of the path. -/
theorem goJoin_goSplit (sep : Char) (s : List Char) : goJoin sep (goSplit sep s) = s := by
  induction s with
  | nil => rfl
  | cons c rest ih =>
    rw [goSplit]
    split
    · next hc =>
      cases h : goSplit sep rest with
      | nil => exact absurd h (goSplit_ne_nil sep rest)
      | cons hd tl =>
        rw [h] at ih
        rw [goJoin_cons_cons, ih, hc]
        rfl
    · next hc =>
      cases h : goSplit sep rest with
      | nil => exact absurd h (goSplit_ne_nil sep rest)
      | cons hd tl =>
        rw [h] at ih
        show goJoin sep ((c :: hd) :: tl) = c :: rest
        cases tl with
        | nil => exact congrArg (fun l => c :: l) ih
        | cons h2 t2 =>
          rw [goJoin_cons_cons] at ih
          rw [goJoin_cons_cons, List.cons_append, ih]

/-- C9 (claim): whichever derivation strategy is used, the name is the final
segment of the logical path and the folder is `/` for a single-segment path
and the leading segments joined by `/` otherwise; the segments are genuine
(they re-join to the logical path), the segment list is never empty, and
both `fetch` variants are instances of the same token computation, strategy
(a) applied to the stripped filesystem path and strategy (b) to the
`JOB_NAME` environment entry. -/
theorem C9_name_folder (p : List Char) :
    goSplit '/' p ≠ [] ∧
    (nameFolder p).1 = (goSplit '/' p).getLastD [] ∧
    (nameFolder p).2 =
      (if (goSplit '/' p).length = 1 then ['/'] else goJoin '/' (goSplit '/' p).dropLast) ∧
    goJoin '/' (goSplit '/' p) = p ∧
    fetchNameFolderA p = nameFolder (fixedPath p) ∧
    fetchNameFolderB p = nameFolder p :=
  ⟨goSplit_ne_nil '/' p, rfl, rfl, goJoin_goSplit '/' p, rfl, rfl⟩

/-! ## Job assembly: fetch and parsePermalinks (`jenkins/job.go` lines 38-83
and 121-144)

`fetch` stats `<path>/builds`, parses `<path>/builds/permalinks`, resolves the
five category build directories through the permalinks map (a missing key
yields `""`, so the lookup degenerates to the builds directory itself), parses
each of the five builds discarding per-build errors, selects the last build,
and derives name and folder.  The filesystem around one job is abstracted
into `JobFS`; `parseBuildAt` maps a permalink value (the build directory name
joined under `builds/`) to the `(Build, error)` pair `parseBuild` returns for
it — the caller keeps the Build and ignores the error. -/

/-- Failure modes of `fetch`, in the order the code can hit them. -/
inductive FetchErr where
  | statFailed
  | notADir
  | permalinksFailed
  | noBuildsFound
deriving DecidableEq

/-- The scanner loop of `parsePermalinks`: each line is split on a single
space and must yield exactly two tokens; the first becomes the key, the
second the value.  A malformed line aborts with the map built so far and an
error. -/
def permLoop (m : List (String × String)) : List String → List (String × String) × Bool
  | [] => (m, false)
  | line :: rest =>
    let toks := goSplit ' ' line.data
    if toks.length ≠ 2 then (m, true)
    else permLoop (mapInsert m (String.mk (toks.getD 0 [])) (String.mk (toks.getD 1 []))) rest

/-- `parsePermalinks` from `jenkins/job.go`: failure to open the file
(`none`) is an error; otherwise the lines are scanned by `permLoop`. -/
def parsePermalinks (file : Option (List String)) : List (String × String) × Bool :=
  match file with
  | none => ([], true)
  | some lines => permLoop [] lines

/-- The filesystem contents `fetch` consults for one job. -/
structure JobFS where
  path : List Char
  buildsStat : Option Bool
  permalinksFile : Option (List String)
  parseBuildAt : String → Build × Bool

/-- The assembled job record `fetch` fills in on success. -/
structure FetchedJob where
  Name : List Char
  Folder : List Char
  LastBuild : Build
  builds : JobBuilds

/-- The five permalink keys `fetch` resolves, in the order it resolves them. -/
def permalinkKeys : List String :=
  ["lastSuccessfulBuild", "lastUnsuccessfulBuild", "lastStableBuild",
   "lastUnstableBuild", "lastFailedBuild"]

/-- The five category builds `fetch` assigns: each is whatever `parseBuild`
returned for the permalink-resolved directory, with the error discarded
(`job.LastXBuild, _ = parseBuild(...)`). -/
def fetchBuilds (fs : JobFS) (pm : List (String × String)) : JobBuilds :=
  { LastSuccessfulBuild := (fs.parseBuildAt (mapGet pm "lastSuccessfulBuild")).1,
    LastUnsuccessfulBuild := (fs.parseBuildAt (mapGet pm "lastUnsuccessfulBuild")).1,
    LastStableBuild := (fs.parseBuildAt (mapGet pm "lastStableBuild")).1,
    LastUnstableBuild := (fs.parseBuildAt (mapGet pm "lastUnstableBuild")).1,
    LastFailedBuild := (fs.parseBuildAt (mapGet pm "lastFailedBuild")).1 }

/-- `fetch` from `jenkins/job.go`: stat `builds` (failure is fatal), require
it to be a directory, parse the permalinks file (failure is fatal), resolve
and parse the five category builds ignoring their individual errors, select
the last build (failure is fatal), then derive name and folder from the
stripped path. -/
def fetchM (fs : JobFS) : Except FetchErr FetchedJob :=
  match fs.buildsStat with
  | none => .error .statFailed
  | some false => .error .notADir
  | some true =>
    let pr := parsePermalinks fs.permalinksFile
    if pr.2 then .error .permalinksFailed
    else
      match selectLastBuild (fetchBuilds fs pr.1) with
      | none => .error .noBuildsFound
      | some lb =>
        .ok { Name := (fetchNameFolderA fs.path).1, Folder := (fetchNameFolderA fs.path).2,
              LastBuild := lb, builds := fetchBuilds fs pr.1 }

/-- A build that parses fine in every category. -/
def goodBuild : Build :=
  { Number := 5, Timestamp := 1000, Duration := 20, Result := "SUCCESS", EnvVars := [] }

/-- A job directory whose `builds` directory exists, every category build of
which parses successfully, but whose permalinks file is missing. -/
def fsMissingPermalinks : JobFS :=
  { path := "r/jobs/j".data,
    buildsStat := some true,
    permalinksFile := none,
    parseBuildAt := fun _ => (goodBuild, false) }

/-- C6 counterexample: the claim says a missing permalinks index is never by
itself a total failure for the job.  On `fsMissingPermalinks` every build is
present and parseable and only the permalinks file is missing, yet `fetch`
fails for the whole job. -/
theorem C6_counterexample :
    fetchM fsMissingPermalinks = .error .permalinksFailed ∧
    fsMissingPermalinks.parseBuildAt "lastSuccessfulBuild" = (goodBuild, false) ∧
    goodBuild.Number = 5 :=
  ⟨rfl, rfl, rfl⟩

/-- C6 (amended): a missing permalinks file is a total failure for the job;
but given a readable, well-formed permalinks file, the five categories are
independent — each category keeps whatever build its `parseBuild` returned,
errors discarded — and the job assembles if and only if some category
resolves to a build with a positive number, so a missing permalinks entry or
a failing category build never by itself fails the job. -/
theorem C6_category_independence (fs : JobFS) (hstat : fs.buildsStat = some true) :
    (fs.permalinksFile = none → fetchM fs = .error .permalinksFailed) ∧
    ((parsePermalinks fs.permalinksFile).2 = false →
      (∀ s, 0 ≤ (fs.parseBuildAt s).1.Number) →
      ((∃ j, fetchM fs = .ok j) ↔
        ∃ k ∈ permalinkKeys,
          0 < (fs.parseBuildAt
            (mapGet (parsePermalinks fs.permalinksFile).1 k)).1.Number)) := by
  constructor
  · intro h
    simp [fetchM, hstat, h, parsePermalinks]
  · intro hperm hnn
    have hfetch : fetchM fs =
        (match selectLastBuild (fetchBuilds fs (parsePermalinks fs.permalinksFile).1) with
         | none => .error .noBuildsFound
         | some lb =>
           .ok { Name := (fetchNameFolderA fs.path).1,
                 Folder := (fetchNameFolderA fs.path).2,
                 LastBuild := lb,
                 builds := fetchBuilds fs (parsePermalinks fs.permalinksFile).1 }) := by
      simp [fetchM, hstat, hperm]
    have hconv : (∃ b ∈ scanOrder (fetchBuilds fs (parsePermalinks fs.permalinksFile).1),
        0 < b.Number) ↔
        ∃ k ∈ permalinkKeys,
          0 < (fs.parseBuildAt
            (mapGet (parsePermalinks fs.permalinksFile).1 k)).1.Number := by
      simp only [scanOrder, fetchBuilds, permalinkKeys, List.mem_cons,
        List.not_mem_nil, or_false]
      constructor
      · rintro ⟨b, hb, hpos⟩
        rcases hb with rfl | rfl | rfl | rfl | rfl | h
        · exact ⟨"lastSuccessfulBuild", Or.inl rfl, hpos⟩
        · exact ⟨"lastStableBuild", Or.inr (Or.inr (Or.inl rfl)), hpos⟩
        · exact ⟨"lastUnsuccessfulBuild", Or.inr (Or.inl rfl), hpos⟩
        · exact ⟨"lastUnstableBuild", Or.inr (Or.inr (Or.inr (Or.inl rfl))), hpos⟩
        · exact ⟨"lastFailedBuild", Or.inr (Or.inr (Or.inr (Or.inr rfl))), hpos⟩
      · rintro ⟨k, hk, hpos⟩
        rcases hk with rfl | rfl | rfl | rfl | rfl
        · exact ⟨_, Or.inl rfl, hpos⟩
        · exact ⟨_, Or.inr (Or.inr (Or.inl rfl)), hpos⟩
        · exact ⟨_, Or.inr (Or.inl rfl), hpos⟩
        · exact ⟨_, Or.inr (Or.inr (Or.inr (Or.inl rfl))), hpos⟩
        · exact ⟨_, Or.inr (Or.inr (Or.inr (Or.inr rfl))), hpos⟩
    constructor
    · rintro ⟨j, hj⟩
      rw [hfetch] at hj
      cases hsel : selectLastBuild (fetchBuilds fs (parsePermalinks fs.permalinksFile).1) with
      | none => rw [hsel] at hj; exact absurd hj (by simp)
      | some lb => exact hconv.mp ((selectLastBuild_isSome_iff _).mp ⟨lb, hsel⟩)
    · intro hk
      obtain ⟨lb, hlb⟩ := (selectLastBuild_isSome_iff _).mpr (hconv.mpr hk)
      rw [hfetch, hlb]
      exact ⟨_, rfl⟩

/-- A concrete job with a well-formed permalinks file pointing the successful
category at build directory `5`, which parses; every other lookup fails and
degrades. -/
def fsOneCategory : JobFS :=
  { path := "testdata/jobs/folder/jobs/folderjob".data,
    buildsStat := some true,
    permalinksFile := some ["lastSuccessfulBuild 5"],
    parseBuildAt := fun s => if s = "5" then (goodBuild, false) else (zeroBuild, true) }

/-- Witness for C6 (amended) on `fsOneCategory`. -/
theorem C6_witness :
    (fsOneCategory.permalinksFile = none → fetchM fsOneCategory = .error .permalinksFailed) ∧
    ((parsePermalinks fsOneCategory.permalinksFile).2 = false →
      (∀ s, 0 ≤ (fsOneCategory.parseBuildAt s).1.Number) →
      ((∃ j, fetchM fsOneCategory = .ok j) ↔
        ∃ k ∈ permalinkKeys,
          0 < (fsOneCategory.parseBuildAt
            (mapGet (parsePermalinks fsOneCategory.permalinksFile).1 k)).1.Number)) :=
  C6_category_independence fsOneCategory rfl

/-! ## Tree walker (`jenkins/jobpath.go`, lines 26-119)

The directory tree under the Jenkins root is modelled by `FsTree`: a
directory has a basename, optionally a `jobs` subdirectory listing its child
directories (`none` models `os.Stat(jobs)` failing because there is no such
directory), a flag for the presence of a `builds` subdirectory, and a flag
for the presence of a `config.xml` file.  Paths are lists of segments; a
child of `d` at path `p` lives at `p ++ ["jobs", name]`, mirroring
`filepath.Join(path, "jobs", jobDir.Name())`, and the basename of such a
path is the directory's name.  The channel of emitted `JobPath`s becomes the
returned list, in emission order; the returned Bool is the error flag. -/

/-- A directory in the Jenkins tree. -/
inductive FsTree : Type where
  | node (name : String) (jobs : Option (List FsTree)) (hasBuilds : Bool) (hasConfig : Bool)

def FsTree.name : FsTree → String
  | .node n _ _ _ => n

def FsTree.jobs : FsTree → Option (List FsTree)
  | .node _ j _ _ => j

def FsTree.hasBuilds : FsTree → Bool
  | .node _ _ b _ => b

def FsTree.hasConfig : FsTree → Bool
  | .node _ _ _ c => c

/- Mutual induction principle for `FsTree` and lists of `FsTree`s: the
derived recursor of the nested inductive is awkward to use directly. -/
mutual

/-- Induction over a tree, mutually with `FsTree.inductList`. -/
theorem FsTree.inductTree (P : FsTree → Prop) (Q : List FsTree → Prop)
    (hnil : Q []) (hcons : ∀ t l, P t → Q l → Q (t :: l))
    (hnode : ∀ name jobs b c, (∀ l, jobs = some l → Q l) → P (FsTree.node name jobs b c)) :
    ∀ t : FsTree, P t
  | .node name jobs b c =>
    hnode name jobs b c (fun l hl =>
      match jobs, hl with
      | some l, rfl => FsTree.inductList P Q hnil hcons hnode l)

/-- Induction over a list of trees, mutually with `FsTree.inductTree`. -/
theorem FsTree.inductList (P : FsTree → Prop) (Q : List FsTree → Prop)
    (hnil : Q []) (hcons : ∀ t l, P t → Q l → Q (t :: l))
    (hnode : ∀ name jobs b c, (∀ l, jobs = some l → Q l) → P (FsTree.node name jobs b c)) :
    ∀ l : List FsTree, Q l
  | [] => hnil
  | t :: rest => hcons t rest (FsTree.inductTree P Q hnil hcons hnode t)
      (FsTree.inductList P Q hnil hcons hnode rest)

end

/-- A filesystem path, as the list of its segments.  The basename is the last
segment. -/
abbrev GoPath := List String

/-- `JobPathOpts` from `jenkins/jobpath.go`; the root is passed to the walker
as the tree itself. -/
structure JobPathOpts where
  IgnoreList : List String

/-- `contains` from `jenkins/jobpath.go` lines 52-59. -/
def containsNeedle (needle : String) (haystack : List String) : Bool :=
  haystack.any (fun item => item == needle)

/-- `parseBuildPath` from `jenkins/jobpath.go` lines 108-119: emit the
directory's own path when it has a `builds` subdirectory, otherwise fail with
the stat error. -/
def parseBuildPath (path : GoPath) (hasBuilds : Bool) : List GoPath × Bool :=
  if hasBuilds then ([path], false) else ([], true)

mutual

/-- `parseJobFolder` from `jenkins/jobpath.go` lines 61-79: skip ignored
basenames; otherwise scan children and the builds directory; when both fail,
the directory is only acceptable if it has a `config.xml`. -/
def parseJobFolder (opts : JobPathOpts) (path : GoPath) : FsTree → List GoPath × Bool
  | .node name jobs hasBuilds hasConfig =>
    if containsNeedle name opts.IgnoreList then ([], false)
    else
      let child : List GoPath × Bool :=
        match jobs with
        | none => ([], true)
        | some jobDirs => parseChildJobs opts path jobDirs
      let build := parseBuildPath path hasBuilds
      if child.2 && build.2 then
        if hasConfig then (child.1 ++ build.1, false) else (child.1 ++ build.1, true)
      else (child.1 ++ build.1, false)

/-- `parseChildJobs` from `jenkins/jobpath.go` lines 81-106: recurse into
each child directory under `jobs/`; a child error is returned immediately,
abandoning the remaining siblings. -/
def parseChildJobs (opts : JobPathOpts) (path : GoPath) : List FsTree → List GoPath × Bool
  | [] => ([], false)
  | jobDir :: rest =>
    let r := parseJobFolder opts (path ++ ["jobs", jobDir.name]) jobDir
    if r.2 then (r.1, true)
    else
      let r2 := parseChildJobs opts path rest
      (r.1 ++ r2.1, r2.2)

end

/-- `GetJobPaths` from `jenkins/jobpath.go` lines 41-50: walk from the root;
the second component is the overall-success signal (`true` iff
`parseJobFolder` returned no error). -/
def GetJobPaths (opts : JobPathOpts) (root : FsTree) : List GoPath × Bool :=
  let r := parseJobFolder opts [root.name] root
  (r.1, !r.2)

/-- A malformed directory: no `jobs`, no `builds`, no `config.xml`. -/
def badDir : FsTree := .node "bad" none false false

/-- A well-formed job directory with builds. -/
def goodJobDir : FsTree := .node "good" none true false

/-- A root listing the malformed directory before a good sibling; the root
itself has `config.xml`. -/
def rootSwallow : FsTree := .node "root" (some [badDir, goodJobDir]) false true

/-- A root (readable, with a `jobs` listing) whose only child is malformed
and which has neither `builds` nor `config.xml`. -/
def rootFail : FsTree := .node "root" (some [badDir]) false false

/-- C2 counterexample: under `rootSwallow` the walk reports success but the
well-formed sibling `good` (which has builds) is never emitted, because the
traversal error on `bad` aborted the sibling scan; and under `rootFail` a
subtree error below a perfectly readable root makes the whole walk fail. -/
theorem C2_counterexample :
    GetJobPaths { IgnoreList := [] } rootSwallow = ([], true) ∧
    goodJobDir.hasBuilds = true ∧
    GetJobPaths { IgnoreList := [] } rootFail = ([], false) := by decide

theorem parseChildJobs_abort (opts : JobPathOpts) (path : GoPath)
    (pre post : List FsTree) (c : FsTree)
    (hpre : ∀ t ∈ pre, (parseJobFolder opts (path ++ ["jobs", t.name]) t).2 = false)
    (hc : (parseJobFolder opts (path ++ ["jobs", c.name]) c).2 = true) :
    parseChildJobs opts path (pre ++ c :: post) =
      ((pre.map fun t => (parseJobFolder opts (path ++ ["jobs", t.name]) t).1).flatten
        ++ (parseJobFolder opts (path ++ ["jobs", c.name]) c).1, true) := by
  induction pre with
  | nil =>
    rw [List.nil_append, parseChildJobs]
    simp only [hc, if_true, List.map_nil, List.flatten_nil, List.nil_append]
  | cons t pre ih =>
    have ht := hpre t (List.mem_cons_self t pre)
    rw [List.cons_append, parseChildJobs]
    simp only [ht, Bool.false_eq_true, if_false,
      ih (fun x hx => hpre x (List.mem_cons_of_mem t hx)), List.map_cons,
      List.flatten_cons, List.append_assoc]

/-- C2 (amended): a traversal error below the root is not local.  In a
non-ignored directory whose `jobs` listing is `pre ++ c :: post`, where every
directory in `pre` scans cleanly and `c` produces a traversal error, the walk
of the directory emits the paths gathered from `pre`, then those gathered
from `c`, then the directory's own path when it has builds — but the
directories in `post` are never visited — and the directory itself reports an
error exactly when it has neither a `builds` subdirectory nor a `config.xml`,
in which case the error keeps propagating and, if it reaches the root, fails
the whole walk. -/
theorem C2_subtree_error_propagation (opts : JobPathOpts) (ppath : GoPath) (name : String)
    (pre post : List FsTree) (c : FsTree) (hasBuilds hasConfig : Bool)
    (hname : containsNeedle name opts.IgnoreList = false)
    (hpre : ∀ t ∈ pre, (parseJobFolder opts (ppath ++ ["jobs", t.name]) t).2 = false)
    (hc : (parseJobFolder opts (ppath ++ ["jobs", c.name]) c).2 = true) :
    parseJobFolder opts ppath (.node name (some (pre ++ c :: post)) hasBuilds hasConfig) =
      ((pre.map fun t => (parseJobFolder opts (ppath ++ ["jobs", t.name]) t).1).flatten
         ++ (parseJobFolder opts (ppath ++ ["jobs", c.name]) c).1
         ++ (if hasBuilds then [ppath] else []),
       !hasBuilds && !hasConfig) := by
  rw [parseJobFolder]
  simp only [hname, Bool.false_eq_true, if_false,
    parseChildJobs_abort opts ppath pre post c hpre hc, parseBuildPath]
  cases hasBuilds <;> cases hasConfig <;> simp

/-- Witness for C2 (amended) at the concrete `rootSwallow` shape: `pre = []`,
the erroring child is `bad`, and the never-visited sibling list is
`[good]`. -/
theorem C2_witness :
    parseJobFolder { IgnoreList := [] } ["root"]
        (.node "root" (some ([] ++ badDir :: [goodJobDir])) false true) =
      ((([] : List FsTree).map (fun t =>
          (parseJobFolder { IgnoreList := [] } (["root"] ++ ["jobs", t.name]) t).1)).flatten
        ++ (parseJobFolder { IgnoreList := [] } (["root"] ++ ["jobs", badDir.name]) badDir).1
        ++ (if false then [["root"]] else []),
       !false && !true) :=
  C2_subtree_error_propagation { IgnoreList := [] } ["root"] "root" [] [goodJobDir] badDir
    false true (by decide) (fun t ht => absurd ht (List.not_mem_nil t)) (by decide)

/-! ## The emitted-path set of the walker on well-formed trees (C3)

A tree is well-formed when every directory in it has a `jobs` subdirectory,
a `builds` subdirectory, or a `config.xml` — i.e. no directory triggers a
traversal error.  The claim-side set is built from the spec: enumerate every
directory of the tree with its path, keep those having a `builds`
subdirectory, and drop those whose own basename or the basename of an
ancestor below the root is in the ignore list. -/

mutual

/-- Well-formedness of a directory: it has a `jobs` subdirectory (whose
children must all be well-formed), or a `builds` subdirectory, or a
`config.xml`. -/
def wfT : FsTree → Bool
  | .node _ none b c => b || c
  | .node _ (some l) _ _ => wfL l

/-- Well-formedness of a list of directories. -/
def wfL : List FsTree → Bool
  | [] => true
  | t :: rest => wfT t && wfL rest

end

mutual

/-- Every directory of the tree, paired with its path. -/
def allDirs (path : GoPath) : FsTree → List (GoPath × FsTree)
  | .node name none b c => [(path, .node name none b c)]
  | .node name (some l) b c => (path, .node name (some l) b c) :: allDirsL path l

/-- Every directory of a list of sibling subtrees, paired with its path. -/
def allDirsL (path : GoPath) : List FsTree → List (GoPath × FsTree)
  | [] => []
  | c :: rest => allDirs (path ++ ["jobs", c.name]) c ++ allDirsL path rest

end

/-- The second element of each consecutive pair: on a path
`[root, "jobs", n1, "jobs", n2, ...]` with the root dropped, this recovers
`[n1, n2, ...]`, the basenames of the directories below the root. -/
def pairsSnd : List String → List String
  | _ :: b :: rest => b :: pairsSnd rest
  | _ => []

/-- The basenames of the directories strictly below the root along a path,
the path's own basename last. -/
def belowRootNames (p : GoPath) : List String := pairsSnd (p.drop 1)

/-- The claim-side set: directories containing a `builds` subdirectory, minus
every directory whose basename or the basename of one of its ancestors below
the root is in the ignore list. -/
def claimSet (opts : JobPathOpts) (root : FsTree) : List GoPath :=
  ((allDirs [root.name] root).filter fun pd =>
      pd.2.hasBuilds &&
        !((belowRootNames pd.1).any fun nm => containsNeedle nm opts.IgnoreList)).map
    Prod.fst

theorem allDirs_eq (path : GoPath) (name : String) (jobs : Option (List FsTree))
    (b c : Bool) :
    allDirs path (.node name jobs b c) =
      (path, FsTree.node name jobs b c) :: allDirsL path (jobs.getD []) := by
  cases jobs <;> rfl

theorem mem_allDirsL (path : GoPath) (l : List FsTree) (p : GoPath) (d : FsTree) :
    (p, d) ∈ allDirsL path l ↔
      ∃ c ∈ l, (p, d) ∈ allDirs (path ++ ["jobs", c.name]) c := by
  induction l with
  | nil => simp [allDirsL]
  | cons c rest ih =>
    simp only [allDirsL, List.mem_append, ih, List.mem_cons]
    constructor
    · rintro (h | ⟨c', hc', h⟩)
      · exact ⟨c, Or.inl rfl, h⟩
      · exact ⟨c', Or.inr hc', h⟩
    · rintro ⟨c', rfl | hc', h⟩
      · exact Or.inl h
      · exact Or.inr ⟨c', hc', h⟩

/-- Every directory enumerated under `path` has `path` as a prefix of its
path. -/
theorem allDirs_ext (t : FsTree) :
    ∀ path p d, (p, d) ∈ allDirs path t → ∃ ext, p = path ++ ext := by
  refine FsTree.inductTree
    (fun t => ∀ path p d, (p, d) ∈ allDirs path t → ∃ ext, p = path ++ ext)
    (fun l => ∀ path p d, (p, d) ∈ allDirsL path l → ∃ ext, p = path ++ ext)
    ?_ ?_ ?_ t
  · intro path p d h
    simp [allDirsL] at h
  · intro c rest hc hrest path p d h
    simp only [allDirsL, List.mem_append] at h
    rcases h with h | h
    · obtain ⟨ext, hext⟩ := hc _ _ _ h
      exact ⟨["jobs", c.name] ++ ext, by rw [hext, List.append_assoc]⟩
    · exact hrest _ _ _ h
  · intro name jobs b c hq path p d h
    rw [allDirs_eq] at h
    rcases List.mem_cons.mp h with h | h
    · refine ⟨[], ?_⟩
      injection h with h1 h2
      rw [h1, List.append_nil]
    · cases jobs with
      | none => simp [allDirsL] at h
      | some l => exact hq l rfl _ _ _ h

theorem drop_child (path : GoPath) (cn : String) (ext p : GoPath)
    (hext : p = (path ++ ["jobs", cn]) ++ ext) :
    p.drop path.length = "jobs" :: cn :: ext ∧
      p.drop (path ++ ["jobs", cn]).length = ext := by
  constructor
  · rw [hext, List.append_assoc, List.drop_left]
    rfl
  · rw [hext, List.drop_left]

/-- On a well-formed tree the walker reports no error, and it emits exactly
the paths of directories that have a `builds` subdirectory and no ignored
basename on their chain from the walked directory (inclusive) downwards. -/
theorem walker_wf_spec (opts : JobPathOpts) :
    ∀ t : FsTree, wfT t = true → ∀ path : GoPath,
      (parseJobFolder opts path t).2 = false ∧
      ∀ p, p ∈ (parseJobFolder opts path t).1 ↔
        ∃ d, (p, d) ∈ allDirs path t ∧ d.hasBuilds = true ∧
          ∀ nm ∈ t.name :: pairsSnd (p.drop path.length),
            containsNeedle nm opts.IgnoreList = false := by
  refine FsTree.inductTree
    (fun t => wfT t = true → ∀ path : GoPath,
      (parseJobFolder opts path t).2 = false ∧
      ∀ p, p ∈ (parseJobFolder opts path t).1 ↔
        ∃ d, (p, d) ∈ allDirs path t ∧ d.hasBuilds = true ∧
          ∀ nm ∈ t.name :: pairsSnd (p.drop path.length),
            containsNeedle nm opts.IgnoreList = false)
    (fun l => wfL l = true → ∀ path : GoPath,
      (parseChildJobs opts path l).2 = false ∧
      ∀ p, p ∈ (parseChildJobs opts path l).1 ↔
        ∃ c ∈ l, ∃ d, (p, d) ∈ allDirs (path ++ ["jobs", c.name]) c ∧
          d.hasBuilds = true ∧
          ∀ nm ∈ c.name :: pairsSnd (p.drop (path ++ ["jobs", c.name]).length),
            containsNeedle nm opts.IgnoreList = false)
    ?_ ?_ ?_
  · intro _ path
    refine ⟨rfl, fun p => ?_⟩
    simp [parseChildJobs]
  · intro c rest hc hrest hwf path
    simp only [wfL, Bool.and_eq_true] at hwf
    obtain ⟨herrC, hmemC⟩ := hc hwf.1 (path ++ ["jobs", c.name])
    obtain ⟨herrR, hmemR⟩ := hrest hwf.2 path
    have hred : parseChildJobs opts path (c :: rest) =
        ((parseJobFolder opts (path ++ ["jobs", c.name]) c).1 ++
          (parseChildJobs opts path rest).1,
         (parseChildJobs opts path rest).2) := by
      rw [parseChildJobs]
      simp only [herrC, Bool.false_eq_true, if_false]
    rw [hred]
    refine ⟨herrR, fun p => ?_⟩
    rw [List.mem_append, hmemC p, hmemR p]
    constructor
    · rintro (h | ⟨c', hc', h⟩)
      · exact ⟨c, List.mem_cons_self c rest, h⟩
      · exact ⟨c', List.mem_cons_of_mem c hc', h⟩
    · rintro ⟨c', hc', h⟩
      rcases List.mem_cons.mp hc' with rfl | hc'
      · exact Or.inl h
      · exact Or.inr ⟨c', hc', h⟩
  · intro name jobs b cfg hq hwf path
    by_cases hign : containsNeedle name opts.IgnoreList = true
    · have hred : parseJobFolder opts path (.node name jobs b cfg) = ([], false) := by
        cases jobs with
        | none => rw [parseJobFolder]; simp [hign]
        | some l => rw [parseJobFolder]; simp [hign]
      rw [hred]
      refine ⟨rfl, fun p => ?_⟩
      simp only [List.not_mem_nil, false_iff]
      rintro ⟨d, hd, hb, hnames⟩
      have hfalse := hnames (FsTree.node name jobs b cfg).name (List.mem_cons_self _ _)
      simp only [FsTree.name] at hfalse
      rw [hign] at hfalse
      exact absurd hfalse (by decide)
    · replace hign : containsNeedle name opts.IgnoreList = false := by
        cases h : containsNeedle name opts.IgnoreList
        · rfl
        · exact absurd h hign
      cases jobs with
      | none =>
        have hwf2 : (b || cfg) = true := by simpa [wfT] using hwf
        cases b with
        | true =>
          have hred : parseJobFolder opts path (.node name none true cfg) =
              ([path], false) := by
            rw [parseJobFolder]
            simp [hign, parseBuildPath]
          rw [hred]
          refine ⟨rfl, fun p => ?_⟩
          simp only [List.mem_singleton]
          constructor
          · rintro rfl
            refine ⟨.node name none true cfg, ?_, rfl, ?_⟩
            · simp [allDirs]
            · intro nm hnm
              have hps : pairsSnd (p.drop p.length) = [] := by
                rw [List.drop_length]
                rfl
              rw [hps] at hnm
              simp only [FsTree.name] at hnm
              rcases List.mem_cons.mp hnm with rfl | hnm
              · exact hign
              · exact absurd hnm (List.not_mem_nil nm)
          · rintro ⟨d, hd, hb, hnames⟩
            simp only [allDirs, List.mem_singleton, Prod.mk.injEq] at hd
            exact hd.1
        | false =>
          obtain rfl : cfg = true := by simpa using hwf2
          have hred : parseJobFolder opts path (.node name none false true) =
              ([], false) := by
            rw [parseJobFolder]
            simp [hign, parseBuildPath]
          rw [hred]
          refine ⟨rfl, fun p => ?_⟩
          simp only [List.not_mem_nil, false_iff]
          rintro ⟨d, hd, hb, hnames⟩
          simp only [allDirs, List.mem_singleton, Prod.mk.injEq] at hd
          rw [hd.2] at hb
          simp [FsTree.hasBuilds] at hb
      | some l =>
        have hwfl : wfL l = true := by simpa [wfT] using hwf
        obtain ⟨herrL, hmemL⟩ := hq l rfl hwfl path
        have hred : parseJobFolder opts path (.node name (some l) b cfg) =
            ((parseChildJobs opts path l).1 ++ (parseBuildPath path b).1, false) := by
          rw [parseJobFolder]
          simp [hign, herrL]
        rw [hred]
        refine ⟨rfl, fun p => ?_⟩
        rw [List.mem_append]
        constructor
        · rintro (h | h)
          · obtain ⟨c, hcmem, d, hd, hb, hnames⟩ := (hmemL p).mp h
            obtain ⟨ext, hext⟩ := allDirs_ext c _ _ _ hd
            obtain ⟨hdrop1, hdrop2⟩ := drop_child path c.name ext p hext
            refine ⟨d, ?_, hb, ?_⟩
            · rw [allDirs_eq]
              exact List.mem_cons_of_mem _ ((mem_allDirsL path l p d).mpr ⟨c, hcmem, hd⟩)
            · intro nm hnm
              simp only [FsTree.name] at hnm
              rw [hdrop1] at hnm
              rw [show pairsSnd ("jobs" :: c.name :: ext) = c.name :: pairsSnd ext from rfl]
                at hnm
              rcases List.mem_cons.mp hnm with rfl | hnm
              · exact hign
              · apply hnames
                rw [hdrop2]
                exact hnm
          · cases b with
            | false => simp [parseBuildPath] at h
            | true =>
              simp only [parseBuildPath, if_true, List.mem_singleton] at h
              subst h
              refine ⟨.node name (some l) true cfg, ?_, rfl, ?_⟩
              · rw [allDirs_eq]
                exact List.mem_cons_self _ _
              · intro nm hnm
                have hps : pairsSnd (p.drop p.length) = [] := by
                  rw [List.drop_length]
                  rfl
                rw [hps] at hnm
                simp only [FsTree.name] at hnm
                rcases List.mem_cons.mp hnm with rfl | hnm
                · exact hign
                · exact absurd hnm (List.not_mem_nil nm)
        · rintro ⟨d, hd, hb, hnames⟩
          rw [allDirs_eq] at hd
          rcases List.mem_cons.mp hd with hd | hd
          · injection hd with h1 h2
            subst h1
            subst h2
            simp only [FsTree.hasBuilds] at hb
            subst hb
            right
            simp [parseBuildPath]
          · left
            apply (hmemL p).mpr
            obtain ⟨c, hcmem, hdc⟩ := (mem_allDirsL path l p d).mp hd
            obtain ⟨ext, hext⟩ := allDirs_ext c _ _ _ hdc
            obtain ⟨hdrop1, hdrop2⟩ := drop_child path c.name ext p hext
            refine ⟨c, hcmem, d, hdc, hb, ?_⟩
            intro nm hnm
            rw [hdrop2] at hnm
            apply hnames
            simp only [FsTree.name]
            rw [hdrop1]
            rw [show pairsSnd ("jobs" :: c.name :: ext) = c.name :: pairsSnd ext from rfl]
            exact List.mem_cons_of_mem name hnm

/-- C3 (claim): on a tree containing only well-formed job folders, with the
root itself not ignored, the walk succeeds and the set of emitted paths is
exactly the set of directories containing a `builds` subdirectory, minus
every directory whose basename, or the basename of one of its ancestors
below the root, is in the ignore list (an ignored directory's subtree is
neither descended into nor emitted from). -/
theorem C3_walker_emits_builds_dirs (opts : JobPathOpts) (root : FsTree)
    (hwf : wfT root = true)
    (hroot : containsNeedle root.name opts.IgnoreList = false) :
    (GetJobPaths opts root).2 = true ∧
    ∀ p, p ∈ (GetJobPaths opts root).1 ↔ p ∈ claimSet opts root := by
  obtain ⟨herr, hmem⟩ := walker_wf_spec opts root hwf [root.name]
  constructor
  · show (!(parseJobFolder opts [root.name] root).2) = true
    rw [herr]
    rfl
  · intro p
    show p ∈ (parseJobFolder opts [root.name] root).1 ↔ _
    rw [hmem p]
    unfold claimSet belowRootNames
    rw [List.mem_map]
    constructor
    · rintro ⟨d, hd, hb, hnames⟩
      refine ⟨(p, d), ?_, rfl⟩
      rw [List.mem_filter]
      refine ⟨hd, ?_⟩
      rw [Bool.and_eq_true, hb]
      refine ⟨rfl, ?_⟩
      rw [Bool.not_eq_true', List.any_eq_false]
      intro nm hnm
      have := hnames nm (List.mem_cons_of_mem _ (by simpa using hnm))
      simp [this]
    · rintro ⟨⟨p', d⟩, hpd, hfst⟩
      obtain rfl : p' = p := hfst
      rw [List.mem_filter] at hpd
      obtain ⟨hd, hcond⟩ := hpd
      rw [Bool.and_eq_true, Bool.not_eq_true', List.any_eq_false] at hcond
      refine ⟨d, hd, hcond.1, ?_⟩
      intro nm hnm
      rcases List.mem_cons.mp hnm with rfl | hnm
      · exact hroot
      · have := hcond.2 nm (by simpa using hnm)
        simpa using this

/-- A concrete well-formed tree: the root (with `config.xml`) has a job child
`a` with builds, and an ignored child `skipme` which has builds and a
grandchild job `b`. -/
def rootWithIgnored : FsTree :=
  .node "root"
    (some [.node "a" none true false,
           .node "skipme" (some [.node "b" none true false]) true false])
    false true

/-- Witness for C3 on `rootWithIgnored` with ignore list `["skipme"]`. -/
theorem C3_witness :
    (GetJobPaths { IgnoreList := ["skipme"] } rootWithIgnored).2 = true ∧
    (["root", "jobs", "a"] ∈ (GetJobPaths { IgnoreList := ["skipme"] } rootWithIgnored).1 ↔
      ["root", "jobs", "a"] ∈ claimSet { IgnoreList := ["skipme"] } rootWithIgnored) :=
  ⟨(C3_walker_emits_builds_dirs { IgnoreList := ["skipme"] } rootWithIgnored
      (by decide) (by decide)).1,
   (C3_walker_emits_builds_dirs { IgnoreList := ["skipme"] } rootWithIgnored
      (by decide) (by decide)).2 ["root", "jobs", "a"]⟩

/-! ## The parse pipeline (C10)

`Collect` in `main.go` (lines 227-304) consumes the path channel with a
single sequential loop: each discovered path is parsed, a failed parse is
logged and skipped, a successful one contributes its job.  That loop is
`collectJobs` below, with the parse abstracted as a function from a path to
an optional job. -/

/-- The consuming loop of `Collect` (`main.go` lines 242-247): parse each
path, drop the ones whose parse fails. -/
def collectJobs (parse : GoPath → Option FetchedJob) (paths : List GoPath) :
    List FetchedJob :=
  paths.filterMap parse

/-- Modelled from the spec: the ParsePipeline component (spec section 4.5) is
absent from src/ — `Collect` is sequential — so the worker pool is taken from
the spec's words: a fixed pool of `workerCount` workers, each input path
delivered to exactly one worker (`assign`, reduced modulo `workerCount`,
names that worker by the path's position in the stream), each worker parsing
its paths and emitting the assembled jobs, with per-job failures dropped.
`workerInput` is worker `w`'s share of the path stream. -/
def workerInput (workerCount : Nat) (assign : Nat → Nat) (paths : List GoPath)
    (w : Nat) : List GoPath :=
  (paths.enum.filter fun ip => assign ip.1 % workerCount == w).map Prod.snd

/-- Modelled from the spec: the pipeline's output stream, as the workers'
outputs in one particular interleaving (the claim only concerns the set of
emitted jobs, which every interleaving shares). -/
def pipelineRun (workerCount : Nat) (assign : Nat → Nat)
    (parse : GoPath → Option FetchedJob) (paths : List GoPath) : List FetchedJob :=
  ((List.range workerCount).map fun w =>
    (workerInput workerCount assign paths w).filterMap parse).flatten

theorem mem_pipelineRun (workerCount : Nat) (hw : 1 ≤ workerCount)
    (assign : Nat → Nat) (parse : GoPath → Option FetchedJob) (paths : List GoPath)
    (j : FetchedJob) :
    j ∈ pipelineRun workerCount assign parse paths ↔ j ∈ collectJobs parse paths := by
  constructor
  · intro hj
    simp only [pipelineRun, List.mem_flatten, List.mem_map] at hj
    obtain ⟨out, ⟨w, hwmem, rfl⟩, hjout⟩ := hj
    rw [List.mem_filterMap] at hjout
    obtain ⟨p, hp, hparse⟩ := hjout
    rw [workerInput, List.mem_map] at hp
    obtain ⟨ip, hipf, rfl⟩ := hp
    rw [List.mem_filter] at hipf
    obtain ⟨i, x⟩ := ip
    have hip := hipf.1
    rw [List.mk_mem_enum_iff_getElem?] at hip
    obtain ⟨hi, hx⟩ := List.getElem?_eq_some.mp hip
    rw [collectJobs, List.mem_filterMap]
    refine ⟨x, ?_, hparse⟩
    rw [← hx]
    exact List.getElem_mem hi
  · intro hj
    rw [collectJobs, List.mem_filterMap] at hj
    obtain ⟨p, hp, hparse⟩ := hj
    obtain ⟨i, hi, rfl⟩ := List.mem_iff_getElem.mp hp
    simp only [pipelineRun, List.mem_flatten, List.mem_map]
    refine ⟨(workerInput workerCount assign paths (assign i % workerCount)).filterMap parse,
      ⟨assign i % workerCount, List.mem_range.mpr (Nat.mod_lt _ (by omega)), rfl⟩, ?_⟩
    rw [List.mem_filterMap]
    refine ⟨paths[i], ?_, hparse⟩
    rw [workerInput, List.mem_map]
    refine ⟨(i, paths[i]), ?_, rfl⟩
    rw [List.mem_filter]
    refine ⟨?_, by simp⟩
    rw [List.mk_mem_enum_iff_getElem?]
    exact List.getElem?_eq_some.mpr ⟨hi, rfl⟩

/-- C10 (claim): for a fixed input path stream and parse behaviour, the set
of jobs the pipeline emits is independent of the worker count and of how
paths are distributed among workers — it always equals the set the
sequential `Collect` loop produces — so `workerCount ≥ 1` has no effect on
which jobs are produced. -/
theorem C10_workerCount_irrelevant (w1 w2 : Nat) (h1 : 1 ≤ w1) (h2 : 1 ≤ w2)
    (assign1 assign2 : Nat → Nat) (parse : GoPath → Option FetchedJob)
    (paths : List GoPath) :
    (∀ j, j ∈ pipelineRun w1 assign1 parse paths ↔ j ∈ collectJobs parse paths) ∧
    (∀ j, j ∈ pipelineRun w1 assign1 parse paths ↔ j ∈ pipelineRun w2 assign2 parse paths) :=
  ⟨fun j => mem_pipelineRun w1 h1 assign1 parse paths j,
   fun j => (mem_pipelineRun w1 h1 assign1 parse paths j).trans
     (mem_pipelineRun w2 h2 assign2 parse paths j).symm⟩

/-- Witness for C10: one worker versus twenty workers with a round-robin
distribution, on a two-path stream where only the first path parses. -/
theorem C10_witness :
    (∀ j, j ∈ pipelineRun 1 (fun i => i) (fun p => if p = [["a"].head!] then some
        { Name := "a".data, Folder := ['/'], LastBuild := goodBuild,
          builds := ⟨goodBuild, zeroBuild, zeroBuild, zeroBuild, zeroBuild⟩ } else none)
        [["a"], ["b"]] ↔
      j ∈ collectJobs (fun p => if p = [["a"].head!] then some
        { Name := "a".data, Folder := ['/'], LastBuild := goodBuild,
          builds := ⟨goodBuild, zeroBuild, zeroBuild, zeroBuild, zeroBuild⟩ } else none)
        [["a"], ["b"]]) ∧
    (∀ j, j ∈ pipelineRun 1 (fun i => i) (fun p => if p = [["a"].head!] then some
        { Name := "a".data, Folder := ['/'], LastBuild := goodBuild,
          builds := ⟨goodBuild, zeroBuild, zeroBuild, zeroBuild, zeroBuild⟩ } else none)
        [["a"], ["b"]] ↔
      j ∈ pipelineRun 20 (fun i => i) (fun p => if p = [["a"].head!] then some
        { Name := "a".data, Folder := ['/'], LastBuild := goodBuild,
          builds := ⟨goodBuild, zeroBuild, zeroBuild, zeroBuild, zeroBuild⟩ } else none)
        [["a"], ["b"]]) :=
  C10_workerCount_irrelevant 1 20 (by decide) (by decide) (fun i => i) (fun i => i) _ _

end Jenkins
